import Mathlib

/-!
Verification of the ultraplan event-capture core.

Shallow embedding of the Python sources:
  src/ultraplan/core/session.py    (voice matching, transcript handling, stop)
  src/ultraplan/core/timeline.py   (timeline state)
  src/ultraplan/core/events.py     (event model)
  src/ultraplan/capture/keyboard.py (hotkey detection)
  src/ultraplan/output/json_output.py and markdown.py (keystroke-run
  reconstruction and event ordering for reports)

Python `str` values are modelled as Lean `String`/`List Char` (ASCII-faithful),
`int` timestamps as `Nat` (all timestamps in the code are non-negative
milliseconds since session start; the only subtraction feeding a comparison
`> 2000` behaves identically for truncated Nat subtraction), and `float`
wall-clock instants as `Nat` milliseconds.
-/

namespace Ultraplan

/-- Punctuation set used by `word.strip(".,!?;:'\"")` in session.py. -/
def isPunct (c : Char) : Bool :=
  c == '.' || c == ',' || c == '!' || c == '?' || c == ';' || c == ':' ||
  c == '\'' || c == '"'

/-- ASCII lower-casing of one character, modelling Python `str.lower()`
on the ASCII inputs this code handles. -/
def pyLowerChar (c : Char) : Char :=
  if c = 'A' then 'a' else if c = 'B' then 'b' else if c = 'C' then 'c'
  else if c = 'D' then 'd' else if c = 'E' then 'e' else if c = 'F' then 'f'
  else if c = 'G' then 'g' else if c = 'H' then 'h' else if c = 'I' then 'i'
  else if c = 'J' then 'j' else if c = 'K' then 'k' else if c = 'L' then 'l'
  else if c = 'M' then 'm' else if c = 'N' then 'n' else if c = 'O' then 'o'
  else if c = 'P' then 'p' else if c = 'Q' then 'q' else if c = 'R' then 'r'
  else if c = 'S' then 's' else if c = 'T' then 't' else if c = 'U' then 'u'
  else if c = 'V' then 'v' else if c = 'W' then 'w' else if c = 'X' then 'x'
  else if c = 'Y' then 'y' else if c = 'Z' then 'z' else c

/-- Python `s.lower()`. -/
def pyLower (s : String) : String :=
  String.mk (s.data.map pyLowerChar)

/-- Python `word.strip(".,!?;:'\"")`: drop the punctuation characters from
both ends of the string. -/
def stripPunct (s : String) : String :=
  String.mk (((s.data.dropWhile isPunct).reverse.dropWhile isPunct).reverse)

/-- Python `s.strip()` with no arguments: drop whitespace from both ends. -/
def pyStrip (s : String) : String :=
  String.mk (((s.data.dropWhile Char.isWhitespace).reverse.dropWhile
    Char.isWhitespace).reverse)

/-- Python `s.split()` on a character list: split on runs of whitespace,
producing no empty words.  `acc` holds the reversed characters of the word
currently being read. -/
def splitAux : List Char → List Char → List (List Char)
  | [], acc => if acc.isEmpty then [] else [acc.reverse]
  | c :: cs, acc =>
    if c.isWhitespace then
      if acc.isEmpty then splitAux cs [] else acc.reverse :: splitAux cs []
    else splitAux cs (c :: acc)

/-- Python `s.split()` on a character list. -/
def pySplitWords (l : List Char) : List (List Char) :=
  splitAux l []

/-- Python `s.split()` (no arguments) as a list of strings. -/
def pySplit (s : String) : List String :=
  (pySplitWords s.data).map String.mk

/-- Inner loop of `edit_distance` in session.py: given the previous DP row,
the remaining characters of `s2` with the two relevant entries of the
previous row, and the last entry written to the current row (`curr_row[j]`),
produce the rest of the current row.  `insertions = prev_row[j+1] + 1`,
`deletions = curr_row[j] + 1`, `substitutions = prev_row[j] + (c1 != c2)`. -/
def levNextRow (c1 : Char) : List Char → List Nat → Nat → List Nat
  | c2 :: s2, p0 :: p1 :: ps, left =>
    let v := Nat.min (p1 + 1) (Nat.min (left + 1) (p0 + (if c1 = c2 then 0 else 1)))
    v :: levNextRow c1 s2 (p1 :: ps) v
  | _, _, _ => []

/-- Outer loop of `edit_distance`: iterate over the characters of `s1`,
replacing `prev_row` by the freshly computed row, whose first entry is
`i + 1`. -/
def levRows (s2 : List Char) : List Char → List Nat → Nat → List Nat
  | [], prevRow, _ => prevRow
  | c1 :: s1, prevRow, i => levRows s2 s1 ((i + 1) :: levNextRow c1 s2 prevRow (i + 1)) (i + 1)

/-- Levenshtein edit distance exactly as the nested function `edit_distance`
inside `_sounds_like` (session.py): swap so the first string is the longer,
shortcut when the second is empty, otherwise run the row DP seeded with
`range(len(s2) + 1)` and return the last entry of the final row. -/
def edit_distance (s1 s2 : String) : Nat :=
  let p := if s1.length < s2.length then (s2, s1) else (s1, s2)
  if p.2.length = 0 then p.1.length
  else (levRows p.2.data p.1.data (List.range (p.2.length + 1)) 0).getLastD 0

/-- `_sounds_like(text, target, threshold)` from session.py: lower-case and
split the text, strip punctuation from each word, skip words whose length
differs from the target's by more than the threshold, and succeed when some
remaining word is within `threshold` edits of the lower-cased target. -/
def sounds_like (text target : String) (threshold : Nat) : Bool :=
  let targetLower := pyLower target
  (pySplit (pyLower text)).any fun w =>
    let w' := stripPunct w
    if threshold < Nat.dist w'.length targetLower.length then false
    else decide (edit_distance w' targetLower ≤ threshold)

/-! Event model (core/events.py). -/

/-- The `EventType` enumeration. -/
inductive EventType where
  | session_start
  | session_end
  | transcript
  | keystroke
  | clipboard
  | screenshot
deriving DecidableEq, BEq, Repr

/-- An `Event`: type tag, millisecond timestamp and the payload fields of the
`data` dict used by the components under verification (`key`/`is_special`
for keystrokes, `text`/`is_partial` for transcripts). Unused payload fields
default to the empty values. -/
structure Event where
  type : EventType
  timestamp_ms : Nat
  key : String := ""
  is_special : Bool := false
  text : String := ""
  isPartial : Bool := false
deriving DecidableEq, BEq, Repr

/-- `KeystrokeEvent` constructor from events.py. -/
def KeystrokeEvent (timestamp_ms : Nat) (key : String) (is_special : Bool) : Event :=
  { type := .keystroke, timestamp_ms := timestamp_ms, key := key, is_special := is_special }

/-- `Event(type=SESSION_END, timestamp_ms=t, data={})` as enqueued by
`RecordingSession.stop`. -/
def SessionEndEvent (timestamp_ms : Nat) : Event :=
  { type := .session_end, timestamp_ms := timestamp_ms }

/-! Keystroke-run reconstruction.

`JSONOutputGenerator._reconstruct_keystroke_sequences` (json_output.py) and
`MarkdownOutputGenerator._reconstruct_keystrokes` (markdown.py) run the same
loop: per keystroke event, if the current run is non-empty and
`event.timestamp_ms - current_start > 2000` the run is flushed and a new one
begun; `current_start` is set to the event's timestamp whenever the run is
empty; the key is appended.  The JSON version records the raw key list (its
`reconstructed` field is the concatenation of those keys); the markdown
version records `(key, is_special)` pairs, renders them with
`_keys_to_text` and drops runs whose rendered text `strip()`s to empty. -/

/-- Loop body of `_reconstruct_keystroke_sequences` over the filtered
keystroke events, with accumulator `current_keys` and `current_start`. -/
def jsonSeqLoop : List Event → List String → Nat → List (Nat × List String)
  | [], currentKeys, currentStart =>
    if currentKeys.isEmpty then [] else [(currentStart, currentKeys)]
  | e :: rest, currentKeys, currentStart =>
    if ¬ currentKeys.isEmpty ∧ 2000 < e.timestamp_ms - currentStart then
      (currentStart, currentKeys) :: jsonSeqLoop rest [e.key] e.timestamp_ms
    else if currentKeys.isEmpty then jsonSeqLoop rest [e.key] e.timestamp_ms
    else jsonSeqLoop rest (currentKeys ++ [e.key]) currentStart

/-- `JSONOutputGenerator._reconstruct_keystroke_sequences(events)`: each
produced entry is `(timestamp_ms, keys)`; the JSON `reconstructed` string is
`String.join` of the keys. -/
def reconstruct_keystroke_sequences (events : List Event) : List (Nat × List String) :=
  let keystrokeEvents := events.filter (fun e => e.type == EventType.keystroke)
  match keystrokeEvents with
  | [] => []
  | e0 :: _ => jsonSeqLoop keystrokeEvents [] e0.timestamp_ms

/-- `MarkdownOutputGenerator._keys_to_text`: both branches of the
`is_special` test append the key unchanged. -/
def keys_to_text (keys : List (String × Bool)) : String :=
  String.join (keys.map (fun p => if p.2 then p.1 else p.1))

/-- Loop body of `_reconstruct_keystrokes` (markdown.py); a run is emitted
only when its rendered text has a non-whitespace character
(`if reconstructed.strip():`). -/
def mdSeqLoop : List Event → List (String × Bool) → Nat → List (Nat × String)
  | [], currentSeq, currentStart =>
    if currentSeq.isEmpty then []
    else if pyStrip (keys_to_text currentSeq) ≠ "" then
      [(currentStart, keys_to_text currentSeq)]
    else []
  | e :: rest, currentSeq, currentStart =>
    if ¬ currentSeq.isEmpty ∧ 2000 < e.timestamp_ms - currentStart then
      (if pyStrip (keys_to_text currentSeq) ≠ "" then
        [(currentStart, keys_to_text currentSeq)]
      else []) ++ mdSeqLoop rest [(e.key, e.is_special)] e.timestamp_ms
    else if currentSeq.isEmpty then mdSeqLoop rest [(e.key, e.is_special)] e.timestamp_ms
    else mdSeqLoop rest (currentSeq ++ [(e.key, e.is_special)]) currentStart

/-- `MarkdownOutputGenerator._reconstruct_keystrokes(events)`. -/
def reconstruct_keystrokes (events : List Event) : List (Nat × String) :=
  let keystrokeEvents := events.filter (fun e => e.type == EventType.keystroke)
  match keystrokeEvents with
  | [] => []
  | e0 :: _ => mdSeqLoop keystrokeEvents [] e0.timestamp_ms

/-- Instrumented version of the shared reconstruction loop that keeps the
whole grouped events (used to state which events land in which run). -/
def groupRunsLoop : List Event → List Event → Nat → List (Nat × List Event)
  | [], currentRun, currentStart =>
    if currentRun.isEmpty then [] else [(currentStart, currentRun)]
  | e :: rest, currentRun, currentStart =>
    if ¬ currentRun.isEmpty ∧ 2000 < e.timestamp_ms - currentStart then
      (currentStart, currentRun) :: groupRunsLoop rest [e] e.timestamp_ms
    else if currentRun.isEmpty then groupRunsLoop rest [e] e.timestamp_ms
    else groupRunsLoop rest (currentRun ++ [e]) currentStart

/-- Run grouping of a (keystroke) event list, keeping the grouped events. -/
def groupRuns (events : List Event) : List (Nat × List Event) :=
  match events with
  | [] => []
  | e0 :: _ => groupRunsLoop events [] e0.timestamp_ms

/-- Reconstruction as worded by the claim under test: close the run when the
gap between the new event and the run's LAST event exceeds 2000 ms (the code
instead measures from the run's first event).  Tracks the last timestamp in
addition to the run start. -/
def reconLastGapSpec' : List Event → List String → Nat → Nat → List (Nat × List String)
  | [], currentKeys, currentStart, _ =>
    if currentKeys.isEmpty then [] else [(currentStart, currentKeys)]
  | e :: rest, currentKeys, currentStart, lastTs =>
    if ¬ currentKeys.isEmpty ∧ 2000 < e.timestamp_ms - lastTs then
      (currentStart, currentKeys) :: reconLastGapSpec' rest [e.key] e.timestamp_ms e.timestamp_ms
    else if currentKeys.isEmpty then reconLastGapSpec' rest [e.key] e.timestamp_ms e.timestamp_ms
    else reconLastGapSpec' rest (currentKeys ++ [e.key]) currentStart e.timestamp_ms

/-- Top level of the claim-worded (gap measured from the run's last event)
reconstruction. -/
def reconLastGapSpec (events : List Event) : List (Nat × List String) :=
  let keystrokeEvents := events.filter (fun e => e.type == EventType.keystroke)
  match keystrokeEvents with
  | [] => []
  | e0 :: _ => reconLastGapSpec' keystrokeEvents [] e0.timestamp_ms e0.timestamp_ms

/-! Event ordering for the report generators (C5).

Both `generate` methods order events with
`sorted(self.timeline.events, key=lambda e: e.timestamp_ms)`.  Python's
`sorted` is a stable sort by key; it is modelled by the canonical stable
sort, insertion sort on the `≤`-by-timestamp relation (any two stable sorts
for the same total preorder agree extensionally). -/

/-- Comparison used by `sorted(..., key=lambda e: e.timestamp_ms)`. -/
def eventLe (a b : Event) : Prop := a.timestamp_ms ≤ b.timestamp_ms

instance : DecidableRel eventLe := fun _ _ => Nat.decLe _ _

instance : IsTotal Event eventLe := ⟨fun _ _ => Nat.le_total _ _⟩

instance : IsTrans Event eventLe := ⟨fun _ _ _ => Nat.le_trans⟩

/-- The timestamp-sorted event order used by both report generators. -/
def sortedEvents (events : List Event) : List Event :=
  List.insertionSort eventLe events

/-! Transcript handling (C2): `RecordingSession._on_transcript`. -/

/-- Substring containment, modelling Python's `needle in haystack` on
strings. -/
def strContains (haystack needle : String) : Bool :=
  haystack.data.tails.any (fun t => needle.data.isPrefixOf t)

/-- The voice-trigger test in `_on_transcript`:
`trigger_word = self.config.voice_trigger.lower()` followed by
`if trigger_word and trigger_word in text.lower()` — plain lower-cased
substring containment. -/
def triggerCheck (voiceTrigger text : String) : Bool :=
  let triggerWord := pyLower voiceTrigger
  triggerWord ≠ "" && strContains (pyLower text) triggerWord

/-- The voice-stop test in `_on_transcript`:
`if stop_phrase and _sounds_like(text, stop_phrase)` (threshold default 2). -/
def stopCheck (voiceStop text : String) : Bool :=
  voiceStop ≠ "" && sounds_like text voiceStop 2

/-- Outcome of `_on_transcript` for one utterance: whether a screenshot is
fired by the trigger check and whether the voice-stop flag is set.  Partial
utterances skip both checks; for finalized ones the checks run in sequence,
neither guarded by the other. -/
def onTranscriptFlags (voiceTrigger voiceStop text : String) (isPartial : Bool) :
    Bool × Bool :=
  if isPartial then (false, false)
  else (triggerCheck voiceTrigger text, stopCheck voiceStop text)

/-! Session stop (C4): `RecordingSession.stop` / `Timeline.stop`.

The relevant session state: the `running` flag, `Timeline.ended_at`
(restamped unconditionally by `Timeline.stop`), the producer→consumer event
queue, the timeline's recorded events, whether the consumer thread is still
alive, and whether the keyboard listener is active (the producer state;
`KeyboardCapture.stop` is a no-op once `self.listener is None`).
`stop(now)` clears `running`, restamps `ended_at := now`, enqueues a
`SessionEnd` stamped `now`, stops the producers, and joins the consumer,
which drains the queue into the timeline before exiting; when the consumer
has already exited (a second call), the queue is left undrained. -/

/-- Modelled mutable state of a `RecordingSession` and its `Timeline`. -/
structure SessionState where
  running : Bool
  endedAt : Option Nat
  queue : List Event
  timelineEvents : List Event
  consumerAlive : Bool
  listenerActive : Bool
deriving DecidableEq, Repr

/-- `RecordingSession.stop` called at wall-clock instant `now` (ms since
session start). -/
def stopSession (now : Nat) (s : SessionState) : SessionState :=
  let s1 : SessionState :=
    { s with running := false, endedAt := some now,
             queue := s.queue ++ [SessionEndEvent now], listenerActive := false }
  if s1.consumerAlive then
    { s1 with timelineEvents := s1.timelineEvents ++ s1.queue, queue := [],
              consumerAlive := false }
  else s1

/-- State of a freshly started session (running, consumer alive, keyboard
listener installed, `SessionStart` already drained into the timeline). -/
def recordingState : SessionState :=
  { running := true, endedAt := none, queue := [],
    timelineEvents := [{ type := .session_start, timestamp_ms := 0 }],
    consumerAlive := true, listenerActive := true }

/-! Hotkey detection (C7–C10): capture/keyboard.py. -/

/-- Input keys as classified by `_get_key_str`: a `KeyCode` with a
character, a `KeyCode` carrying only a virtual key code, or a special
`Key` (modifier/function/arrow) with a name. -/
inductive PKey where
  | char (c : String)
  | vk (n : Nat)
  | special (name : String)
deriving DecidableEq, Repr

/-- `KeyboardCapture._get_key_str`: returns the string form and the
`is_special` flag. -/
def get_key_str : PKey → String × Bool
  | .char c => (c, false)
  | .vk n => ("<vk:" ++ toString n ++ ">", true)
  | .special name => ("<" ++ name ++ ">", true)

/-- `KeyboardCapture._check_hotkey`: evict buffer entries with
`current_time - t >= timeout` (the code keeps `current_time - t <
self.hotkey_timeout`), then report a match when the trailing
`len(hotkey_screenshot)` buffer entries concatenate to the hotkey literal.
Returns the cleaned buffer (the eviction mutates `self.key_buffer`) and
whether the screenshot hotkey matched. -/
def check_hotkey (timeout : Nat) (target : String) (buf : List (String × Nat))
    (now : Nat) : List (String × Nat) × Bool :=
  let buf2 := buf.filter (fun p => now - p.2 < timeout)
  if target.length ≤ buf2.length ∧
      String.join ((buf2.drop (buf2.length - target.length)).map Prod.fst) = target
  then (buf2, true)
  else (buf2, false)

/-- Result of one `_on_press` call: the key buffer afterwards, whether the
hotkey fired (`on_hotkey` invoked), and the keystroke reported through
`on_keystroke` (`none` when the handler returned before reporting). -/
structure PressResult where
  buffer : List (String × Nat)
  fired : Bool
  reported : Option (String × Nat × Bool)
deriving DecidableEq, Repr

/-- `KeyboardCapture._on_press` with both callbacks installed (as wired by
`RecordingSession.start`): special keys bypass the buffer entirely and are
reported; plain keys are appended, the hotkey is checked, and on a match the
buffer is cleared and the handler returns without reporting the keystroke. -/
def on_press (timeout : Nat) (target : String) (startTime : Nat)
    (buf : List (String × Nat)) (key : PKey) (now : Nat) : PressResult :=
  let ks := get_key_str key
  let timestampMs := now - startTime
  if ks.2 then
    { buffer := buf, fired := false, reported := some (ks.1, timestampMs, true) }
  else
    let buf1 := buf ++ [(ks.1, now)]
    let checked := check_hotkey timeout target buf1 now
    if checked.2 then
      { buffer := [], fired := true, reported := none }
    else
      { buffer := checked.1, fired := false, reported := some (ks.1, timestampMs, false) }

/-- Run a sequence of `(key, arrival-instant)` presses through `_on_press`,
threading the key buffer, and collect the per-press results. -/
def runPresses (timeout : Nat) (target : String) (startTime : Nat) :
    List (String × Nat) → List (PKey × Nat) → List PressResult
  | _, [] => []
  | buf, (k, t) :: rest =>
    let r := on_press timeout target startTime buf k t
    r :: runPresses timeout target startTime r.buffer rest

/-! Voice-command filtering (C6): `RecordingSession._filter_voice_commands`.

Per configured command word the code first runs
`re.sub(rf"\b{re.escape(word)}\b[,.\s]*", "", filtered, flags=re.IGNORECASE)`
and then drops every whitespace-separated word `w` with
`_sounds_like(w.strip(punct), word, threshold=2)`, re-joining with single
spaces; finally whitespace is collapsed (`re.sub(r"\s+", " ", ...)`) and
stripped.  The regex substitution is modelled by a left-to-right scanner:
`\b` is a word-boundary (transition between `\w` = alphanumeric/underscore
and non-word, string edges counting as non-word), the literal matches
case-insensitively, and `[,.\s]*` greedily consumes commas, periods and
whitespace; matches are non-overlapping and scanning resumes after the
consumed text (matches are located in the original string, as `re.sub`
does). -/

/-- Characters of the trailing `[,.\s]*` class. -/
def isTrailClass (c : Char) : Bool :=
  c == ',' || c == '.' || c.isWhitespace

/-- Word-character test (`\w`) lifted to an optional character; the edges of
the string count as non-word. -/
def wordCharB : Option Char → Bool
  | none => false
  | some c => c.isAlphanum || c == '_'

/-- A `\b` word boundary sits between two (optional) characters when
exactly one side is a word character. -/
def boundaryAt (prev next : Option Char) : Bool :=
  wordCharB prev != wordCharB next

/-- Case-insensitive character-list equality (`re.IGNORECASE`). -/
def ciEq (a b : List Char) : Bool :=
  a.map pyLowerChar == b.map pyLowerChar

/-- Scanner for `re.sub(rf"\b{word}\b[,.\s]*", "", text, re.IGNORECASE)`
with non-empty pattern word `w :: ws`; `prev` is the character preceding the
scan position in the original text.  Structured on a fuel argument so the
recursion is structural: every step consumes at least one character, so any
fuel of at least the text's length never runs out (the fuel-exhausted
branch is unreachable for the lengths this is called with). -/
def subWordScan (w : Char) (ws : List Char) : Nat → Option Char → List Char → List Char
  | 0, _, s => s
  | _ + 1, _, [] => []
  | fuel + 1, prev, c :: cs =>
    if boundaryAt prev (some c)
        && decide (ws.length + 1 ≤ (c :: cs).length)
        && ciEq ((c :: cs).take (ws.length + 1)) (w :: ws)
        && boundaryAt ((c :: cs).take (ws.length + 1)).getLast?
            ((c :: cs).drop (ws.length + 1)).head? then
      let rest := (c :: cs).drop (ws.length + 1)
      let trail := rest.takeWhile isTrailClass
      subWordScan w ws fuel (((c :: cs).take (ws.length + 1)) ++ trail).getLast?
        (rest.drop trail.length)
    else c :: subWordScan w ws fuel (some c) cs

/-- One `re.sub(rf"\b{re.escape(word)}\b[,.\s]*", "", text, re.IGNORECASE)`
pass; an empty pattern word leaves the text unchanged (never reached: the
caller only passes configured non-empty command words). -/
def regexSubWord (word text : String) : String :=
  match word.data with
  | [] => text
  | w :: ws => String.mk (subWordScan w ws text.data.length none text.data)

/-- The per-word fuzzy filtering stage inside `_filter_voice_commands`:
keep the words of `text` whose punctuation-stripped form does not sound
like `word`, re-joined with single spaces. -/
def fuzzyFilterPass (word text : String) : String :=
  String.intercalate " "
    ((pySplit text).filter (fun w => !(sounds_like (stripPunct w) word 2)))

/-- Replace each maximal whitespace run with a single space
(`re.sub(r"\s+", " ", s)`); the flag records whether the scan is inside a
whitespace run whose single space has already been emitted. -/
def collapseAux : List Char → Bool → List Char
  | [], _ => []
  | c :: cs, inRun =>
    if c.isWhitespace then
      if inRun then collapseAux cs true else ' ' :: collapseAux cs true
    else c :: collapseAux cs false

/-- `re.sub(r"\s+", " ", s).strip()`. -/
def collapseWs (s : String) : String :=
  pyStrip (String.mk (collapseAux s.data false))

/-- `RecordingSession._filter_voice_commands(text)` with configuration
values `voice_trigger` and `voice_stop`: per command word (trigger first,
then stop, each included when non-empty) run the regex pass and then the
fuzzy word filter, and finally collapse whitespace. -/
def filter_voice_commands (voiceTrigger voiceStop text : String) : String :=
  let wordsToRemove :=
    (if voiceTrigger ≠ "" then [voiceTrigger] else []) ++
      (if voiceStop ≠ "" then [voiceStop] else [])
  if wordsToRemove.isEmpty then text
  else
    collapseWs
      (wordsToRemove.foldl (fun acc word => fuzzyFilterPass word (regexSubWord word acc))
        text)

/-- The claim's removal criterion for a single word: its
punctuation-stripped, lower-cased form is within edit distance 2 of the
command word. -/
def specNear (w cmd : String) : Bool :=
  decide (edit_distance (stripPunct (pyLower w)) (pyLower cmd) ≤ 2)

/-- Voice-command filtering as worded by the claim under test: remove
exactly the words within the threshold of either command word, keep the
rest in order, single-space separated. -/
def filterVoiceCommandsSpec (voiceTrigger voiceStop text : String) : String :=
  String.intercalate " "
    ((pySplit text).filter (fun w => !(specNear w voiceTrigger || specNear w voiceStop)))

/-- The amended claim's removal criterion for one word: its
punctuation-stripped, lower-cased form is non-empty and within edit
distance 2 of the lower-cased command word.  (A word that strips to pure
punctuation is never removed: `_sounds_like` splits the empty string into
no words and so finds no match.) -/
def specNearAmended (w cmd : String) : Bool :=
  !(stripPunct (pyLower w)).data.isEmpty
    && decide (edit_distance (stripPunct (pyLower w)) (pyLower cmd) ≤ 2)

/-- The amended claim's word-level removal for one command word (used to
state the amended claim stage by stage). -/
def specWordFilterAmended (cmd text : String) : String :=
  String.intercalate " " ((pySplit text).filter (fun w => !(specNearAmended w cmd)))

/-! Theorems. -/

/-- Helper: the `fired` outcome and cleared buffer of `_on_press` on a match. -/
theorem on_press_fired_buffer (timeout : Nat) (target : String) (startTime : Nat)
    (buf : List (String × Nat)) (key : PKey) (now : Nat)
    (h : (on_press timeout target startTime buf key now).fired = true) :
    (on_press timeout target startTime buf key now).buffer = [] ∧
    (on_press timeout target startTime buf key now).reported = none := by
  unfold on_press at h ⊢
  by_cases hs : (get_key_str key).2 <;> simp only [hs] at h ⊢
  · simp at h
  · simp only [Bool.false_eq_true, if_false] at h ⊢
    by_cases hc : (check_hotkey timeout target (buf ++ [((get_key_str key).1, now)]) now).2 <;>
      simp [hc] at h ⊢

/-- Helper: on a plain key, `_on_press` fires exactly what `_check_hotkey`
reports on the appended buffer. -/
theorem on_press_char_fired (timeout : Nat) (target : String) (startTime : Nat)
    (buf : List (String × Nat)) (c : String) (now : Nat) :
    (on_press timeout target startTime buf (PKey.char c) now).fired
      = (check_hotkey timeout target (buf ++ [(c, now)]) now).2 := by
  unfold on_press get_key_str
  by_cases hc : (check_hotkey timeout target (buf ++ [(c, now)]) now).2 <;> simp [hc]

/-- Helper: the match bit of `_check_hotkey` holds exactly when the trailing
`target.length` entries of the evicted buffer concatenate to the target. -/
theorem check_hotkey_snd (timeout : Nat) (target : String)
    (buf : List (String × Nat)) (now : Nat) :
    (check_hotkey timeout target buf now).2 = true ↔
      (target.length ≤ (buf.filter (fun p : String × Nat => now - p.2 < timeout)).length ∧
        String.join
          (((buf.filter (fun p : String × Nat => now - p.2 < timeout)).drop
            ((buf.filter (fun p : String × Nat => now - p.2 < timeout)).length
              - target.length)).map Prod.fst) = target) := by
  unfold check_hotkey
  dsimp only
  split_ifs with h
  · simpa using h
  · simpa using h

/-- C7: with timeout 300 ms and target "jj", a plain keystroke fires the
hotkey exactly when, after evicting buffer entries too old for the timeout
(those with `now - t ≥ 300`) and appending the new key, the trailing two
buffer entries concatenate to "jj"; presses "j"@0ms and "j"@200ms fire on
the second press, presses "j"@0ms and "j"@400ms do not. -/
theorem C7_hotkey_window :
    (∀ (buf : List (String × Nat)) (c : String) (now : Nat),
      (on_press 300 "jj" 0 buf (PKey.char c) now).fired = true ↔
        (2 ≤ ((buf ++ [(c, now)]).filter (fun p : String × Nat => now - p.2 < 300)).length ∧
          String.join
            ((((buf ++ [(c, now)]).filter (fun p : String × Nat => now - p.2 < 300)).drop
              (((buf ++ [(c, now)]).filter (fun p : String × Nat => now - p.2 < 300)).length
                - 2)).map Prod.fst) = "jj"))
    ∧ (runPresses 300 "jj" 0 [] [(PKey.char "j", 0), (PKey.char "j", 200)]).map
        PressResult.fired = [false, true]
    ∧ (runPresses 300 "jj" 0 [] [(PKey.char "j", 0), (PKey.char "j", 400)]).map
        PressResult.fired = [false, false] := by
  refine ⟨?_, by decide, by decide⟩
  intro buf c now
  have hlen : ("jj" : String).length = 2 := by decide
  rw [on_press_char_fired, check_hotkey_snd, hlen]

/-- Witness for C7 at a concrete firing press. -/
theorem C7_hotkey_window_witness :
    (on_press 300 "jj" 0 [("j", 0)] (PKey.char "j") 200).fired = true ↔
      (2 ≤ (([("j", 0)] ++ [("j", 200)]).filter
          (fun p : String × Nat => 200 - p.2 < 300)).length ∧
        String.join
          (((([("j", 0)] ++ [("j", 200)]).filter
              (fun p : String × Nat => 200 - p.2 < 300)).drop
            ((([("j", 0)] ++ [("j", 200)]).filter
              (fun p : String × Nat => 200 - p.2 < 300)).length - 2)).map
            Prod.fst) = "jj") :=
  C7_hotkey_window.1 [("j", 0)] "j" 200

/-- C8: a fired hotkey clears the whole key buffer, so four "j" presses with
every gap below 300 ms fire exactly twice (on the second and fourth press). -/
theorem C8_nonoverlapping :
    (∀ (timeout : Nat) (target : String) (startTime : Nat) (buf : List (String × Nat))
      (key : PKey) (now : Nat),
      (on_press timeout target startTime buf key now).fired = true →
        (on_press timeout target startTime buf key now).buffer = [])
    ∧ (runPresses 300 "jj" 0 []
        [(PKey.char "j", 0), (PKey.char "j", 100), (PKey.char "j", 200),
          (PKey.char "j", 290)]).map PressResult.fired = [false, true, false, true]
    ∧ ((runPresses 300 "jj" 0 []
        [(PKey.char "j", 0), (PKey.char "j", 100), (PKey.char "j", 200),
          (PKey.char "j", 290)]).map PressResult.fired).count true = 2 := by
  refine ⟨?_, by decide, by decide⟩
  intro timeout target startTime buf key now h
  exact (on_press_fired_buffer timeout target startTime buf key now h).1

/-- Witness for C8 at a concrete firing press. -/
theorem C8_nonoverlapping_witness :
    (on_press 300 "jj" 0 [("j", 0)] (PKey.char "j") 200).buffer = [] :=
  C8_nonoverlapping.1 300 "jj" 0 [("j", 0)] (PKey.char "j") 200 (by decide)

/-- C9: special keys leave the hotkey buffer untouched but are still
reported (with `is_special` true); "j", shift, "j" inside the window still
fires "jj" and the shift press reaches the keystroke callback. -/
theorem C9_special_keys :
    (∀ (timeout : Nat) (target : String) (startTime : Nat) (buf : List (String × Nat))
      (name : String) (now : Nat),
      on_press timeout target startTime buf (PKey.special name) now
        = { buffer := buf, fired := false,
            reported := some ("<" ++ name ++ ">", now - startTime, true) })
    ∧ (runPresses 300 "jj" 0 []
        [(PKey.char "j", 0), (PKey.special "shift", 100), (PKey.char "j", 200)]).map
        PressResult.fired = [false, false, true]
    ∧ (runPresses 300 "jj" 0 []
        [(PKey.char "j", 0), (PKey.special "shift", 100), (PKey.char "j", 200)]).map
        PressResult.reported
        = [some ("j", 0, false), some ("<shift>", 100, true), none] := by
  exact ⟨fun _ _ _ _ _ _ => rfl, by decide, by decide⟩

/-- C10: the keystroke that completes a fired hotkey is never reported
(`_on_press` returns before `on_keystroke`), while every non-firing press is
reported with its key string, timestamp and `is_special` flag. -/
theorem C10_final_key_suppressed :
    (∀ (timeout : Nat) (target : String) (startTime : Nat) (buf : List (String × Nat))
      (key : PKey) (now : Nat),
      ((on_press timeout target startTime buf key now).fired = true →
        (on_press timeout target startTime buf key now).reported = none)
      ∧ ((on_press timeout target startTime buf key now).fired = false →
        (on_press timeout target startTime buf key now).reported
          = some ((get_key_str key).1, now - startTime, (get_key_str key).2)))
    ∧ (runPresses 300 "jj" 0 [] [(PKey.char "j", 0), (PKey.char "j", 200)]).map
        PressResult.reported = [some ("j", 0, false), none] := by
  refine ⟨?_, by decide⟩
  intro timeout target startTime buf key now
  constructor
  · intro h
    exact (on_press_fired_buffer timeout target startTime buf key now h).2
  · intro h
    unfold on_press at h ⊢
    by_cases hs : (get_key_str key).2 <;> simp only [hs] at h ⊢
    · rfl
    · simp only [Bool.false_eq_true, if_false] at h ⊢
      by_cases hc : (check_hotkey timeout target (buf ++ [((get_key_str key).1, now)]) now).2 <;>
        simp [hc] at h ⊢

/-- Witness for C10: both directions at concrete presses. -/
theorem C10_final_key_suppressed_witness :
    (on_press 300 "jj" 0 [("j", 0)] (PKey.char "j") 200).reported = none
    ∧ (on_press 300 "jj" 0 [] (PKey.char "j") 0).reported = some ("j", 0, false) :=
  ⟨(C10_final_key_suppressed.1 300 "jj" 0 [("j", 0)] (PKey.char "j") 200).1 (by decide),
    (C10_final_key_suppressed.1 300 "jj" 0 [] (PKey.char "j") 0).2 (by decide)⟩

/-- C4 fails as stated: a second `stop` call is not a no-op — it restamps
`Timeline.ended_at` and enqueues another `SessionEnd` event (which the
already-exited consumer never drains). -/
theorem C4_counterexample :
    stopSession 6000 (stopSession 5000 recordingState) ≠ stopSession 5000 recordingState
    ∧ (stopSession 6000 (stopSession 5000 recordingState)).endedAt = some 6000
    ∧ (stopSession 5000 recordingState).endedAt = some 5000
    ∧ (stopSession 5000 recordingState).queue = []
    ∧ (stopSession 6000 (stopSession 5000 recordingState)).queue = [SessionEndEvent 6000] := by
  refine ⟨?_, by decide, by decide, by decide, by decide⟩
  intro h
  have := congrArg SessionState.endedAt h
  simp [stopSession, recordingState] at this

/-- C4 amended: a second `stop` appends no further `SessionEnd` to the
timeline and leaves the recorded events and (already stopped) producers
unchanged, but it does enqueue another `SessionEnd` on the now-undrained
queue and restamps the timeline end instant with the later stop time. -/
theorem C4_amended (s : SessionState) (now : Nat) (h : s.consumerAlive = false) :
    (stopSession now s).timelineEvents = s.timelineEvents
    ∧ (stopSession now s).queue = s.queue ++ [SessionEndEvent now]
    ∧ (stopSession now s).endedAt = some now
    ∧ (stopSession now s).running = false
    ∧ (stopSession now s).listenerActive = false := by
  simp [stopSession, h]

/-- Witness for C4 amended: the second stop of a concrete session. -/
theorem C4_amended_witness :
    (stopSession 6000 (stopSession 5000 recordingState)).timelineEvents
      = (stopSession 5000 recordingState).timelineEvents
    ∧ (stopSession 6000 (stopSession 5000 recordingState)).queue
      = (stopSession 5000 recordingState).queue ++ [SessionEndEvent 6000]
    ∧ (stopSession 6000 (stopSession 5000 recordingState)).endedAt = some 6000
    ∧ (stopSession 6000 (stopSession 5000 recordingState)).running = false
    ∧ (stopSession 6000 (stopSession 5000 recordingState)).listenerActive = false :=
  C4_amended (stopSession 5000 recordingState) 6000 (by decide)

/-- Helper for the stability of the report ordering: inserting an event
into a list leaves each equal-timestamp fibre unchanged except for
prepending the new event to its own fibre (the elements the insertion walks
past have strictly smaller timestamps). -/
theorem orderedInsert_filter_timestamp (a : Event) (l : List Event) (t : Nat) :
    (List.orderedInsert eventLe a l).filter (fun e => e.timestamp_ms == t)
      = if a.timestamp_ms = t then a :: l.filter (fun e => e.timestamp_ms == t)
        else l.filter (fun e => e.timestamp_ms == t) := by
  induction l with
  | nil =>
    simp only [List.orderedInsert, List.filter_cons, List.filter_nil]
    by_cases h : a.timestamp_ms = t <;> simp [h]
  | cons b l ih =>
    simp only [List.orderedInsert]
    by_cases hab : eventLe a b
    · simp only [if_pos hab, List.filter_cons]
      split_ifs with h₁ h₂ h₂ <;> simp_all
    · have hba : b.timestamp_ms < a.timestamp_ms := Nat.lt_of_not_le hab
      simp only [if_neg hab, List.filter_cons, ih]
      by_cases hat : a.timestamp_ms = t
      · have hbt : (b.timestamp_ms == t) = false := by
          simp only [beq_eq_false_iff_ne, ne_eq]
          omega
        simp [hbt, hat]
      · simp [hat]

/-- C5: the event ordering used by both report generators is a permutation
of the timeline list, sorted by `timestamp_ms`, and stable: each
equal-timestamp fibre keeps its original (insertion) order. -/
theorem C5_sorted_stable :
    ∀ l : List Event,
      (sortedEvents l).Perm l
      ∧ List.Sorted eventLe (sortedEvents l)
      ∧ ∀ t : Nat,
          (sortedEvents l).filter (fun e => e.timestamp_ms == t)
            = l.filter (fun e => e.timestamp_ms == t) := by
  intro l
  refine ⟨List.perm_insertionSort eventLe l, List.sorted_insertionSort eventLe l, ?_⟩
  intro t
  induction l with
  | nil => rfl
  | cons a l ih =>
    simp only [sortedEvents, List.insertionSort] at ih ⊢
    rw [orderedInsert_filter_timestamp, List.filter_cons]
    split_ifs with h₁ h₂ h₂ <;> simp_all

/-- Helper: `needle in haystack` (the model `strContains`) holds exactly
when the needle's characters are an infix of the haystack's. -/
theorem strContains_iff (haystack needle : String) :
    strContains haystack needle = true ↔ needle.data <:+: haystack.data := by
  unfold strContains
  rw [List.any_eq_true]
  constructor
  · rintro ⟨t, ht, hp⟩
    rw [List.mem_tails] at ht
    exact List.infix_iff_prefix_suffix.mpr ⟨t, List.isPrefixOf_iff_prefix.mp hp, ht⟩
  · intro h
    obtain ⟨t, hp, hs⟩ := List.infix_iff_prefix_suffix.mp h
    exact ⟨t, (List.mem_tails _ _).mpr hs, List.isPrefixOf_iff_prefix.mpr hp⟩

/-- C2 fails as stated: the trigger check is an exact (lower-cased)
substring test, not the fuzzy criterion of the stop check — "pinito" is
within edit distance 2 of the trigger "finito" (so the claim predicts a
trigger match) yet no screenshot is fired. -/
theorem C2_counterexample :
    sounds_like "pinito" "finito" 2 = true
    ∧ (onTranscriptFlags "finito" "finito" "pinito" false).1 = false
    ∧ (onTranscriptFlags "finito" "finito" "pinito" false).2 = true := by
  refine ⟨by decide, by decide, by decide⟩

/-- C2 amended: for a finalized utterance the trigger check fires exactly
when the lower-cased trigger word is non-empty and occurs as a substring of
the lower-cased utterance (exact containment, not the fuzzy criterion),
while the stop check fires exactly when the stop phrase is non-empty and
`_sounds_like` accepts the utterance; the two checks are computed
independently, so one utterance may satisfy both; partial utterances fire
neither. -/
theorem C2_amended :
    (∀ voiceTrigger text : String,
      triggerCheck voiceTrigger text = true ↔
        pyLower voiceTrigger ≠ "" ∧ (pyLower voiceTrigger).data <:+: (pyLower text).data)
    ∧ (∀ voiceStop text : String,
      stopCheck voiceStop text = true ↔
        voiceStop ≠ "" ∧ sounds_like text voiceStop 2 = true)
    ∧ (∀ (voiceTrigger voiceStop text : String) (isPartial : Bool),
      onTranscriptFlags voiceTrigger voiceStop text isPartial
        = if isPartial then (false, false)
          else (triggerCheck voiceTrigger text, stopCheck voiceStop text))
    ∧ onTranscriptFlags "marco" "finito" "ok marco now pinito" false = (true, true) := by
  refine ⟨?_, ?_, ?_, by decide⟩
  · intro voiceTrigger text
    unfold triggerCheck
    rw [Bool.and_eq_true, strContains_iff]
    simp
  · intro voiceStop text
    unfold stopCheck
    rw [Bool.and_eq_true]
    simp
  · intro voiceTrigger voiceStop text isPartial
    rfl

/-- Helper: the JSON reconstruction loop is the key-projection of the
instrumented grouping loop. -/
theorem jsonSeqLoop_eq_groupRunsLoop :
    ∀ (evs run : List Event) (cs : Nat),
      jsonSeqLoop evs (run.map Event.key) cs
        = (groupRunsLoop evs run cs).map (fun r => (r.1, r.2.map Event.key)) := by
  intro evs
  induction evs with
  | nil =>
    intro run cs
    simp only [jsonSeqLoop, groupRunsLoop, List.isEmpty_eq_true, List.map_eq_nil_iff]
    split_ifs with h₁ h₂ h₂ <;> simp_all
  | cons e rest ih =>
    intro run cs
    simp only [jsonSeqLoop, groupRunsLoop, List.isEmpty_eq_true, List.map_eq_nil_iff]
    by_cases h₁ : ¬ run = [] ∧ 2000 < e.timestamp_ms - cs
    · rw [if_pos h₁, if_pos h₁, List.map_cons]
      have := ih [e] e.timestamp_ms
      simp only [List.map_cons, List.map_nil] at this
      rw [this]
    · rw [if_neg h₁, if_neg h₁]
      by_cases h₂ : run = []
      · rw [if_pos h₂, if_pos h₂]
        have := ih [e] e.timestamp_ms
        simp only [List.map_cons, List.map_nil] at this
        rw [this]
      · rw [if_neg h₂, if_neg h₂, ← ih (run ++ [e]) cs]
        simp

/-- Helper: the grouping loop partitions its input — the concatenation of
the produced runs is the pending run followed by the remaining events. -/
theorem groupRunsLoop_join :
    ∀ (evs run : List Event) (cs : Nat),
      ((groupRunsLoop evs run cs).map Prod.snd).join = run ++ evs := by
  intro evs
  induction evs with
  | nil =>
    intro run cs
    simp only [groupRunsLoop, List.isEmpty_eq_true]
    split_ifs with h <;> simp [h]
  | cons e rest ih =>
    intro run cs
    simp only [groupRunsLoop, List.isEmpty_eq_true]
    split_ifs with h₁ h₂
    · simp [ih [e] e.timestamp_ms]
    · simp [h₂, ih [e] e.timestamp_ms]
    · rw [ih (run ++ [e]) cs]
      simp

/-- Helper: when the pending run is non-empty, the first emitted run starts
at the pending start timestamp. -/
theorem groupRunsLoop_head_start :
    ∀ (evs run : List Event) (cs : Nat), run ≠ [] →
      (groupRunsLoop evs run cs).head?.map Prod.fst = some cs := by
  intro evs
  induction evs with
  | nil =>
    intro run cs h
    simp only [groupRunsLoop, List.isEmpty_eq_true]
    rw [if_neg h]
    rfl
  | cons e rest ih =>
    intro run cs h
    simp only [groupRunsLoop, List.isEmpty_eq_true]
    by_cases h₁ : ¬ run = [] ∧ 2000 < e.timestamp_ms - cs
    · rw [if_pos h₁]
      rfl
    · rw [if_neg h₁, if_neg h]
      exact ih (run ++ [e]) cs (by simp)

/-- Helper: the grouping loop of a non-empty pending run produces a
non-empty run list. -/
theorem groupRunsLoop_ne_nil :
    ∀ (evs run : List Event) (cs : Nat), run ≠ [] →
      groupRunsLoop evs run cs ≠ [] := by
  intro evs run cs h hnil
  have := groupRunsLoop_head_start evs run cs h
  rw [hnil] at this
  simp at this

/-- Helper: successive runs emitted by the grouping loop have start
timestamps more than 2000 ms apart. -/
theorem groupRunsLoop_chain :
    ∀ (evs run : List Event) (cs : Nat),
      List.Chain' (fun a b : Nat × List Event => 2000 < b.1 - a.1)
        (groupRunsLoop evs run cs) := by
  intro evs
  induction evs with
  | nil =>
    intro run cs
    simp only [groupRunsLoop, List.isEmpty_eq_true]
    split_ifs <;> simp
  | cons e rest ih =>
    intro run cs
    simp only [groupRunsLoop, List.isEmpty_eq_true]
    split_ifs with h₁ h₂
    · rw [List.chain'_cons']
      refine ⟨?_, ih [e] e.timestamp_ms⟩
      intro b hb
      have hhead := groupRunsLoop_head_start rest [e] e.timestamp_ms (by simp)
      cases hrec : groupRunsLoop rest [e] e.timestamp_ms with
      | nil => rw [hrec] at hb; simp at hb
      | cons b0 l =>
        rw [hrec] at hb hhead
        have hb' : b0 = b := by simpa using hb
        have hh' : b0.1 = e.timestamp_ms := by simpa using hhead
        rw [← hb', hh']
        exact h₁.2
    · exact ih [e] e.timestamp_ms
    · exact ih (run ++ [e]) cs

/-- Helper: structure of every emitted run — non-empty, starting at its
recorded timestamp, and extended only while the member's timestamp is within
2000 ms of the run start. -/
theorem groupRunsLoop_runs :
    ∀ (evs run : List Event) (cs : Nat),
      (run ≠ [] → run.head?.map Event.timestamp_ms = some cs) →
      (∀ e ∈ run, e.timestamp_ms - cs ≤ 2000) →
      ∀ s r, (s, r) ∈ groupRunsLoop evs run cs →
        r ≠ [] ∧ r.head?.map Event.timestamp_ms = some s ∧
          ∀ e ∈ r, e.timestamp_ms - s ≤ 2000 := by
  intro evs
  induction evs with
  | nil =>
    intro run cs hhead hmem s r hr
    simp only [groupRunsLoop, List.isEmpty_eq_true] at hr
    split_ifs at hr with h
    · simp at hr
    · simp only [List.mem_singleton, Prod.mk.injEq] at hr
      obtain ⟨rfl, rfl⟩ := hr
      exact ⟨h, hhead h, hmem⟩
  | cons e rest ih =>
    intro run cs hhead hmem s r hr
    simp only [groupRunsLoop, List.isEmpty_eq_true] at hr
    split_ifs at hr with h₁ h₂
    · rcases List.mem_cons.mp hr with heq | hmem'
      · simp only [Prod.mk.injEq] at heq
        obtain ⟨rfl, rfl⟩ := heq
        exact ⟨h₁.1, hhead h₁.1, hmem⟩
      · exact ih [e] e.timestamp_ms (by simp) (by simp) s r hmem'
    · exact ih [e] e.timestamp_ms (by simp) (by simp) s r hr
    · refine ih (run ++ [e]) cs ?_ ?_ s r hr
      · intro _
        cases run with
        | nil => exact absurd rfl h₂
        | cons a l => simpa using hhead (by simp)
      · intro x hx
        rcases List.mem_append.mp hx with hx | hx
        · exact hmem x hx
        · simp only [List.mem_singleton] at hx
          rw [hx]
          have hgap : ¬ 2000 < e.timestamp_ms - cs := fun hc => h₁ ⟨h₂, hc⟩
          omega

/-- C1 fails as stated: the code closes a run when the gap from the run's
START exceeds 2000 ms, not the gap from the run's last event.  Keystrokes at
0, 1500 and 3000 ms have successive gaps of 1500 ms (so the claim's rule
keeps one run) yet the code splits after 3000 − 0 > 2000. -/
theorem C1_counterexample :
    reconstruct_keystroke_sequences
        [KeystrokeEvent 0 "a" false, KeystrokeEvent 1500 "b" false,
          KeystrokeEvent 3000 "c" false]
      = [(0, ["a", "b"]), (3000, ["c"])]
    ∧ reconLastGapSpec
        [KeystrokeEvent 0 "a" false, KeystrokeEvent 1500 "b" false,
          KeystrokeEvent 3000 "c" false]
      = [(0, ["a", "b", "c"])]
    ∧ reconstruct_keystroke_sequences
        [KeystrokeEvent 0 "a" false, KeystrokeEvent 1500 "b" false,
          KeystrokeEvent 3000 "c" false]
      ≠ reconLastGapSpec
        [KeystrokeEvent 0 "a" false, KeystrokeEvent 1500 "b" false,
          KeystrokeEvent 3000 "c" false] := by
  refine ⟨by decide, by decide, by decide⟩

/-- C1 amended: the reconstruction pass extends the current run exactly
while the gap between the new event and the RUN'S START timestamp is at most
2000 ms, closing the run (recording its start timestamp and keys, whose
concatenation is the reported text) and starting a new one when that gap is
exceeded; events at 0, 500, 900 and 4000 ms yield runs starting at 0 and at
4000. -/
theorem C1_amended :
    (∀ events : List Event,
      reconstruct_keystroke_sequences events
        = (groupRuns (events.filter (fun e => e.type == EventType.keystroke))).map
            (fun r => (r.1, r.2.map Event.key)))
    ∧ (∀ ks : List Event, ((groupRuns ks).map Prod.snd).join = ks)
    ∧ (∀ (ks : List Event) (s : Nat) (r : List Event), (s, r) ∈ groupRuns ks →
        r ≠ [] ∧ r.head?.map Event.timestamp_ms = some s ∧
          ∀ e ∈ r, e.timestamp_ms - s ≤ 2000)
    ∧ (∀ ks : List Event,
        List.Chain' (fun a b : Nat × List Event => 2000 < b.1 - a.1) (groupRuns ks))
    ∧ reconstruct_keystroke_sequences
        [KeystrokeEvent 0 "a" false, KeystrokeEvent 500 "b" false,
          KeystrokeEvent 900 "c" false, KeystrokeEvent 4000 "d" false]
        = [(0, ["a", "b", "c"]), (4000, ["d"])] := by
  refine ⟨?_, ?_, ?_, ?_, by decide⟩
  · intro events
    unfold reconstruct_keystroke_sequences groupRuns
    cases events.filter (fun e => e.type == EventType.keystroke) with
    | nil => rfl
    | cons e0 rest =>
      have := jsonSeqLoop_eq_groupRunsLoop (e0 :: rest) [] e0.timestamp_ms
      simpa using this
  · intro ks
    unfold groupRuns
    cases ks with
    | nil => rfl
    | cons e0 rest => simpa using groupRunsLoop_join (e0 :: rest) [] e0.timestamp_ms
  · intro ks s r hr
    unfold groupRuns at hr
    cases hks : ks with
    | nil => rw [hks] at hr; simp at hr
    | cons e0 rest =>
      rw [hks] at hr
      exact groupRunsLoop_runs (e0 :: rest) [] e0.timestamp_ms (by simp) (by simp) s r hr
  · intro ks
    unfold groupRuns
    cases ks with
    | nil => simp
    | cons e0 rest => exact groupRunsLoop_chain (e0 :: rest) [] e0.timestamp_ms

/-- Witness for C1 amended: the run-structure clause at a concrete run. -/
theorem C1_amended_witness :
    ([KeystrokeEvent 0 "a" false] : List Event) ≠ []
    ∧ ([KeystrokeEvent 0 "a" false] : List Event).head?.map Event.timestamp_ms = some 0
    ∧ ∀ e ∈ ([KeystrokeEvent 0 "a" false] : List Event), e.timestamp_ms - 0 ≤ 2000 :=
  C1_amended.2.2.1 [KeystrokeEvent 0 "a" false] 0 [KeystrokeEvent 0 "a" false]
    (by exact List.mem_singleton.mpr rfl)

/-- Helper: `_keys_to_text` concatenates the keys (its `is_special` branch
is vacuous). -/
theorem keys_to_text_eq (ps : List (String × Bool)) :
    keys_to_text ps = String.join (ps.map Prod.fst) := by
  simp [keys_to_text]

/-- Helper: the markdown reconstruction loop equals the JSON loop with keys
concatenated and whitespace-only runs dropped. -/
theorem mdSeqLoop_eq :
    ∀ (evs : List Event) (pairs : List (String × Bool)) (cs : Nat),
      mdSeqLoop evs pairs cs
        = ((jsonSeqLoop evs (pairs.map Prod.fst) cs).map
            (fun r => (r.1, String.join r.2))).filter (fun r => !((pyStrip r.2) == "")) := by
  intro evs
  induction evs with
  | nil =>
    intro pairs cs
    simp only [mdSeqLoop, jsonSeqLoop, List.isEmpty_eq_true, List.map_eq_nil_iff]
    by_cases hp : pairs = []
    · simp [hp]
    · rw [if_neg hp, if_neg hp]
      simp only [List.map_cons, List.map_nil, List.filter]
      rw [keys_to_text_eq]
      rcases eq_or_ne (pyStrip (String.join (pairs.map Prod.fst))) "" with ht | ht
      · have hb : (pyStrip (String.join (pairs.map Prod.fst)) == "") = true :=
          beq_iff_eq.mpr ht
        simp [ht, hb]
      · have hb : (pyStrip (String.join (pairs.map Prod.fst)) == "") = false :=
          beq_eq_false_iff_ne.mpr ht
        simp [ht, hb]
  | cons e rest ih =>
    intro pairs cs
    simp only [mdSeqLoop, jsonSeqLoop, List.isEmpty_eq_true, List.map_eq_nil_iff]
    by_cases h₁ : ¬ pairs = [] ∧ 2000 < e.timestamp_ms - cs
    · rw [if_pos h₁, if_pos h₁]
      have ihx := ih [(e.key, e.is_special)] e.timestamp_ms
      simp only [List.map_cons, List.map_nil] at ihx
      rw [List.map_cons, List.filter_cons, keys_to_text_eq, ihx]
      rcases eq_or_ne (pyStrip (String.join (pairs.map Prod.fst))) "" with ht | ht
      · have hb : (pyStrip (String.join (pairs.map Prod.fst)) == "") = true :=
          beq_iff_eq.mpr ht
        simp [ht, hb]
      · have hb : (pyStrip (String.join (pairs.map Prod.fst)) == "") = false :=
          beq_eq_false_iff_ne.mpr ht
        simp [ht, hb]
    · rw [if_neg h₁, if_neg h₁]
      by_cases h₂ : pairs = []
      · rw [if_pos h₂, if_pos h₂]
        have ihx := ih [(e.key, e.is_special)] e.timestamp_ms
        simpa using ihx
      · rw [if_neg h₂, if_neg h₂]
        have ihx := ih (pairs ++ [(e.key, e.is_special)]) cs
        simpa using ihx

/-- C3 fails as stated: a run whose concatenated content is all whitespace
is emitted by the JSON generator but dropped by the markdown generator, so
the two run sequences differ on a single space keystroke. -/
theorem C3_counterexample :
    reconstruct_keystrokes [KeystrokeEvent 0 " " false] = []
    ∧ reconstruct_keystroke_sequences [KeystrokeEvent 0 " " false] = [(0, [" "])]
    ∧ (reconstruct_keystrokes [KeystrokeEvent 0 " " false]).length
      ≠ (reconstruct_keystroke_sequences [KeystrokeEvent 0 " " false]).length := by
  refine ⟨by decide, by decide, by decide⟩

/-- C3 amended: both generators recompute identical runs (same grouping,
same start timestamps, same concatenated content), but the markdown
generator omits the runs whose concatenated content has no non-whitespace
character while the JSON generator still emits them: the markdown run list
is exactly the JSON run list with keys concatenated and whitespace-only
runs removed. -/
theorem C3_amended :
    ∀ events : List Event,
      reconstruct_keystrokes events
        = ((reconstruct_keystroke_sequences events).map
            (fun r => (r.1, String.join r.2))).filter (fun r => !((pyStrip r.2) == "")) := by
  intro events
  unfold reconstruct_keystrokes reconstruct_keystroke_sequences
  cases events.filter (fun e => e.type == EventType.keystroke) with
  | nil => rfl
  | cons e0 rest =>
    have := mdSeqLoop_eq (e0 :: rest) [] e0.timestamp_ms
    simpa using this

/-- Helper: the DP inner loop produces one entry per remaining character of
`s2` when the previous row is long enough. -/
theorem levNextRow_length (c1 : Char) :
    ∀ (s2 : List Char) (prow : List Nat) (left : Nat),
      s2.length + 1 ≤ prow.length → (levNextRow c1 s2 prow left).length = s2.length := by
  intro s2
  induction s2 with
  | nil => intro prow left _; cases prow with
    | nil => rfl
    | cons p0 ps => cases ps <;> rfl
  | cons c2 s2 ih =>
    intro prow left h
    match prow, h with
    | p0 :: p1 :: ps, h =>
      simp only [levNextRow, List.length_cons]
      rw [ih (p1 :: ps) _ (by simpa using h)]

/-- Helper: every DP row entry dominates the distance of its coordinates —
entry `m` of the row for prefix length `i + 1`, offset by `j0 + 1` columns,
is at least `dist (i+1) (j0+m+1)`. -/
theorem levNextRow_ge (c1 : Char) :
    ∀ (s2 : List Char) (prow : List Nat) (left i j0 : Nat),
      (∀ m, m < prow.length → Nat.dist i (j0 + m) ≤ prow.getD m 0) →
      Nat.dist (i + 1) j0 ≤ left →
      ∀ m, m < (levNextRow c1 s2 prow left).length →
        Nat.dist (i + 1) (j0 + m + 1) ≤ (levNextRow c1 s2 prow left).getD m 0 := by
  intro s2
  induction s2 with
  | nil => intro prow left i j0 _ _ m hm; simp [levNextRow] at hm
  | cons c2 s2 ih =>
    intro prow left i j0 hp hl m hm
    match prow, hp, hm with
    | p0 :: p1 :: ps, hp, hm =>
      have h0 : Nat.dist i j0 ≤ p0 := by simpa using hp 0 (by simp)
      have h1 : Nat.dist i (j0 + 1) ≤ p1 := by simpa using hp 1 (by simp)
      have hv : Nat.dist (i + 1) (j0 + 1)
          ≤ Nat.min (p1 + 1) (Nat.min (left + 1) (p0 + (if c1 = c2 then 0 else 1))) := by
        refine Nat.le_min.mpr ⟨?_, Nat.le_min.mpr ⟨?_, ?_⟩⟩
        · simp only [Nat.dist] at h1 ⊢; omega
        · simp only [Nat.dist] at hl ⊢; omega
        · have hb : Nat.dist (i + 1) (j0 + 1) ≤ p0 := by
            simp only [Nat.dist] at h0 ⊢; omega
          exact le_trans hb (Nat.le_add_right _ _)
      cases m with
      | zero => simpa [levNextRow] using hv
      | succ m =>
        simp only [levNextRow, List.length_cons, Nat.succ_lt_succ_iff] at hm
        simp only [levNextRow, List.getD_cons_succ]
        have harr : j0 + (m + 1) + 1 = (j0 + 1) + m + 1 := by omega
        rw [harr]
        refine ih (p1 :: ps) _ i (j0 + 1) ?_ hv m hm
        intro m' hm'
        have := hp (m' + 1) (by simpa using Nat.succ_lt_succ hm')
        simpa [Nat.add_assoc, Nat.add_comm 1 m'] using this

/-- Helper: the DP outer loop preserves the row length. -/
theorem levRows_length :
    ∀ (s1 s2 : List Char) (prow : List Nat) (i : Nat),
      prow.length = s2.length + 1 → (levRows s2 s1 prow i).length = s2.length + 1 := by
  intro s1
  induction s1 with
  | nil => intro s2 prow i h; simpa [levRows] using h
  | cons c1 s1 ih =>
    intro s2 prow i h
    simp only [levRows]
    exact ih s2 _ (i + 1) (by simp [levNextRow_length c1 s2 prow _ (by omega)])

/-- Helper: after processing all of `s1`, every entry of the final DP row
dominates the distance between `s1`'s length (plus the starting row index)
and its column. -/
theorem levRows_ge :
    ∀ (s1 s2 : List Char) (prow : List Nat) (i : Nat),
      prow.length = s2.length + 1 →
      (∀ m, m < prow.length → Nat.dist i m ≤ prow.getD m 0) →
      ∀ m, m < (levRows s2 s1 prow i).length →
        Nat.dist (i + s1.length) m ≤ (levRows s2 s1 prow i).getD m 0 := by
  intro s1
  induction s1 with
  | nil =>
    intro s2 prow i _ hp m hm
    simpa [levRows] using hp m (by simpa [levRows] using hm)
  | cons c1 s1 ih =>
    intro s2 prow i hlen hp m hm
    simp only [levRows] at hm ⊢
    have hstep : ∀ m', m' < ((i + 1) :: levNextRow c1 s2 prow (i + 1)).length →
        Nat.dist (i + 1) m' ≤ ((i + 1) :: levNextRow c1 s2 prow (i + 1)).getD m' 0 := by
      intro m' hm'
      cases m' with
      | zero => simpa [Nat.dist] using Nat.le_refl (i + 1)
      | succ m' =>
        simp only [List.getD_cons_succ]
        have hm'' : m' < (levNextRow c1 s2 prow (i + 1)).length := by
          simpa using Nat.lt_of_succ_lt_succ hm'
        have := levNextRow_ge c1 s2 prow (i + 1) i 0 (by simpa using hp)
          (by simpa [Nat.dist] using Nat.le_refl (i + 1)) m' hm''
        simpa using this
    have hlen' : ((i + 1) :: levNextRow c1 s2 prow (i + 1)).length = s2.length + 1 := by
      simp [levNextRow_length c1 s2 prow _ (by omega)]
    have := ih s2 _ (i + 1) hlen' hstep m hm
    have harr : i + 1 + s1.length = i + (s1.length + 1) := by omega
    rw [harr] at this
    simpa using this

/-- Helper: `getLastD` of a non-empty list is its entry at the last index. -/
theorem getLastD_eq_getD :
    ∀ (l : List Nat) (d e : Nat), l ≠ [] → l.getLastD d = l.getD (l.length - 1) e := by
  intro l
  induction l with
  | nil => intro d e h; exact absurd rfl h
  | cons a l ih =>
    intro d e _
    cases l with
    | nil => rfl
    | cons b t =>
      calc (a :: b :: t).getLastD d = (b :: t).getLastD a := by
            obtain ⟨x, hx⟩ := Option.isSome_iff_exists.mp
              (List.getLast?_isSome.mpr (by simp : (b :: t) ≠ []))
            simp [List.getLastD_cons, hx]
        _ = (b :: t).getD ((b :: t).length - 1) e := ih a e (by simp)
        _ = (a :: b :: t).getD ((a :: b :: t).length - 1) e := by
            simp [List.getD_cons_succ]

/-- Helper: the DP core of `edit_distance` dominates the length
difference. -/
theorem levCore_ge (a b : String) (hb : b.length ≠ 0) :
    Nat.dist a.length b.length
      ≤ (levRows b.data a.data (List.range (b.length + 1)) 0).getLastD 0 := by
  have hdb : b.data.length = b.length := rfl
  have hda : a.data.length = a.length := rfl
  have hlen0 : (List.range (b.length + 1)).length = b.data.length + 1 := by
    simp [hdb]
  have hinit : ∀ m, m < (List.range (b.length + 1)).length →
      Nat.dist 0 m ≤ (List.range (b.length + 1)).getD m 0 := by
    intro m hm
    rw [List.length_range] at hm
    rw [List.getD_eq_getElem _ _ (by simpa using hm)]
    simp [Nat.dist]
  have hlenf := levRows_length a.data b.data (List.range (b.length + 1)) 0 hlen0
  have hfin := levRows_ge a.data b.data (List.range (b.length + 1)) 0 hlen0 hinit
    b.length (by rw [hlenf, hdb]; omega)
  rw [getLastD_eq_getD _ 0 0 (by intro hnil; rw [hnil] at hlenf; simp at hlenf)]
  rw [hlenf, hdb]
  simpa [hda, Nat.dist_comm] using hfin

/-- Helper: the Levenshtein distance computed by `edit_distance` is at least
the difference of the two lengths (so the length prefilter in
`_sounds_like` never changes the verdict). -/
theorem edit_distance_ge (s1 s2 : String) :
    Nat.dist s1.length s2.length ≤ edit_distance s1 s2 := by
  unfold edit_distance
  by_cases hlt : s1.length < s2.length
  · rw [if_pos hlt]
    by_cases hz : s1.length = 0
    · rw [if_pos hz]
      simp only [Nat.dist, hz]
      omega
    · rw [if_neg hz]
      simpa [Nat.dist_comm] using levCore_ge s2 s1 hz
  · rw [if_neg hlt]
    by_cases hz : s2.length = 0
    · rw [if_pos hz]
      simp only [Nat.dist, hz]
      omega
    · rw [if_neg hz]
      exact levCore_ge s1 s2 hz

/-- Helper: a character that is not an upper-case letter is fixed by the
lower-casing map. -/
theorem pyLowerChar_eq_self (c : Char) (h1 : c ≠ 'A') (h2 : c ≠ 'B') (h3 : c ≠ 'C') (h4 : c ≠ 'D') (h5 : c ≠ 'E') (h6 : c ≠ 'F') (h7 : c ≠ 'G') (h8 : c ≠ 'H') (h9 : c ≠ 'I') (h10 : c ≠ 'J') (h11 : c ≠ 'K') (h12 : c ≠ 'L') (h13 : c ≠ 'M') (h14 : c ≠ 'N') (h15 : c ≠ 'O') (h16 : c ≠ 'P') (h17 : c ≠ 'Q') (h18 : c ≠ 'R') (h19 : c ≠ 'S') (h20 : c ≠ 'T') (h21 : c ≠ 'U') (h22 : c ≠ 'V') (h23 : c ≠ 'W') (h24 : c ≠ 'X') (h25 : c ≠ 'Y') (h26 : c ≠ 'Z') :
    pyLowerChar c = c := by
  unfold pyLowerChar
  rw [if_neg h1, if_neg h2, if_neg h3, if_neg h4, if_neg h5, if_neg h6, if_neg h7, if_neg h8, if_neg h9, if_neg h10, if_neg h11, if_neg h12, if_neg h13, if_neg h14, if_neg h15, if_neg h16, if_neg h17, if_neg h18, if_neg h19, if_neg h20, if_neg h21, if_neg h22, if_neg h23, if_neg h24, if_neg h25, if_neg h26]

/-- Helper: lower-casing does not change whether a character is in the
strip-punctuation set. -/
theorem isPunct_pyLowerChar (c : Char) : isPunct (pyLowerChar c) = isPunct c := by
  by_cases h1 : c = 'A'
  · subst h1; decide
  by_cases h2 : c = 'B'
  · subst h2; decide
  by_cases h3 : c = 'C'
  · subst h3; decide
  by_cases h4 : c = 'D'
  · subst h4; decide
  by_cases h5 : c = 'E'
  · subst h5; decide
  by_cases h6 : c = 'F'
  · subst h6; decide
  by_cases h7 : c = 'G'
  · subst h7; decide
  by_cases h8 : c = 'H'
  · subst h8; decide
  by_cases h9 : c = 'I'
  · subst h9; decide
  by_cases h10 : c = 'J'
  · subst h10; decide
  by_cases h11 : c = 'K'
  · subst h11; decide
  by_cases h12 : c = 'L'
  · subst h12; decide
  by_cases h13 : c = 'M'
  · subst h13; decide
  by_cases h14 : c = 'N'
  · subst h14; decide
  by_cases h15 : c = 'O'
  · subst h15; decide
  by_cases h16 : c = 'P'
  · subst h16; decide
  by_cases h17 : c = 'Q'
  · subst h17; decide
  by_cases h18 : c = 'R'
  · subst h18; decide
  by_cases h19 : c = 'S'
  · subst h19; decide
  by_cases h20 : c = 'T'
  · subst h20; decide
  by_cases h21 : c = 'U'
  · subst h21; decide
  by_cases h22 : c = 'V'
  · subst h22; decide
  by_cases h23 : c = 'W'
  · subst h23; decide
  by_cases h24 : c = 'X'
  · subst h24; decide
  by_cases h25 : c = 'Y'
  · subst h25; decide
  by_cases h26 : c = 'Z'
  · subst h26; decide
  rw [pyLowerChar_eq_self c h1 h2 h3 h4 h5 h6 h7 h8 h9 h10 h11 h12 h13 h14 h15 h16 h17 h18 h19 h20 h21 h22 h23 h24 h25 h26]

/-- Helper: lower-casing does not change whether a character is
whitespace. -/
theorem isWhitespace_pyLowerChar (c : Char) :
    (pyLowerChar c).isWhitespace = c.isWhitespace := by
  by_cases h1 : c = 'A'
  · subst h1; decide
  by_cases h2 : c = 'B'
  · subst h2; decide
  by_cases h3 : c = 'C'
  · subst h3; decide
  by_cases h4 : c = 'D'
  · subst h4; decide
  by_cases h5 : c = 'E'
  · subst h5; decide
  by_cases h6 : c = 'F'
  · subst h6; decide
  by_cases h7 : c = 'G'
  · subst h7; decide
  by_cases h8 : c = 'H'
  · subst h8; decide
  by_cases h9 : c = 'I'
  · subst h9; decide
  by_cases h10 : c = 'J'
  · subst h10; decide
  by_cases h11 : c = 'K'
  · subst h11; decide
  by_cases h12 : c = 'L'
  · subst h12; decide
  by_cases h13 : c = 'M'
  · subst h13; decide
  by_cases h14 : c = 'N'
  · subst h14; decide
  by_cases h15 : c = 'O'
  · subst h15; decide
  by_cases h16 : c = 'P'
  · subst h16; decide
  by_cases h17 : c = 'Q'
  · subst h17; decide
  by_cases h18 : c = 'R'
  · subst h18; decide
  by_cases h19 : c = 'S'
  · subst h19; decide
  by_cases h20 : c = 'T'
  · subst h20; decide
  by_cases h21 : c = 'U'
  · subst h21; decide
  by_cases h22 : c = 'V'
  · subst h22; decide
  by_cases h23 : c = 'W'
  · subst h23; decide
  by_cases h24 : c = 'X'
  · subst h24; decide
  by_cases h25 : c = 'Y'
  · subst h25; decide
  by_cases h26 : c = 'Z'
  · subst h26; decide
  rw [pyLowerChar_eq_self c h1 h2 h3 h4 h5 h6 h7 h8 h9 h10 h11 h12 h13 h14 h15 h16 h17 h18 h19 h20 h21 h22 h23 h24 h25 h26]

/-- Helper: the data of a lower-cased string. -/
theorem pyLower_data (s : String) : (pyLower s).data = s.data.map pyLowerChar := rfl

/-- Helper: lower-casing preserves the length. -/
theorem pyLower_length (s : String) : (pyLower s).length = s.length := by
  show (s.data.map pyLowerChar).length = s.data.length
  simp

/-- Helper: `dropWhile` with a predicate invariant under a map commutes
with that map. -/
theorem dropWhile_map_invariant (f : Char → Char) (p : Char → Bool)
    (hp : ∀ c, p (f c) = p c) (l : List Char) :
    (l.map f).dropWhile p = (l.dropWhile p).map f := by
  rw [List.dropWhile_map]
  congr 1
  induction l with
  | nil => rfl
  | cons c cs ih => simp only [List.dropWhile_cons, Function.comp_apply, hp c, ih]

/-- Helper: punctuation stripping commutes with lower-casing. -/
theorem stripPunct_pyLower (s : String) :
    stripPunct (pyLower s) = pyLower (stripPunct s) := by
  unfold stripPunct pyLower
  refine congrArg String.mk ?_
  rw [show (String.mk (s.data.map pyLowerChar)).data = s.data.map pyLowerChar from rfl,
    dropWhile_map_invariant pyLowerChar isPunct isPunct_pyLowerChar,
    ← List.map_reverse, dropWhile_map_invariant pyLowerChar isPunct isPunct_pyLowerChar,
    ← List.map_reverse]

/-- Helper: the head of a `dropWhile` result never satisfies the dropped
predicate. -/
theorem head_dropWhile_false (p : Char → Bool) :
    ∀ (l : List Char) (c : Char), (l.dropWhile p).head? = some c → p c = false := by
  intro l
  induction l with
  | nil => intro c h; simp at h
  | cons a t ih =>
    intro c h
    by_cases ha : p a
    · rw [List.dropWhile_cons_of_pos ha] at h
      exact ih c h
    · rw [List.dropWhile_cons_of_neg ha] at h
      simp only [List.head?_cons, Option.some_inj] at h
      subst h
      exact Bool.not_eq_true _ ▸ (by simpa using ha)

/-- Helper: `dropWhile` is the identity when the head does not satisfy the
predicate. -/
theorem dropWhile_no_op (p : Char → Bool) (l : List Char)
    (h : ∀ c, l.head? = some c → p c = false) : l.dropWhile p = l := by
  cases l with
  | nil => rfl
  | cons a t =>
    have := h a rfl
    rw [List.dropWhile_cons_of_neg (by simp [this])]

/-- Helper: a non-empty `dropWhile` result keeps the last element. -/
theorem getLast?_dropWhile (p : Char → Bool) :
    ∀ l : List Char, l.dropWhile p ≠ [] → (l.dropWhile p).getLast? = l.getLast? := by
  intro l
  induction l with
  | nil => intro h; exact absurd rfl h
  | cons a t ih =>
    intro h
    by_cases ha : p a
    · rw [List.dropWhile_cons_of_pos ha] at h ⊢
      have ht : t ≠ [] := by
        intro hnil
        rw [hnil] at h
        exact h rfl
      rw [ih h]
      cases t with
      | nil => exact absurd rfl ht
      | cons b u => rfl
    · rw [List.dropWhile_cons_of_neg ha]

/-- Helper: the characters of `stripPunct s` are characters of `s`. -/
theorem stripPunct_subset (s : String) :
    ∀ c ∈ (stripPunct s).data, c ∈ s.data := by
  intro c hc
  have h1 : c ∈ (s.data.dropWhile isPunct).reverse.dropWhile isPunct := by
    simpa [stripPunct] using hc
  have h2 : c ∈ (s.data.dropWhile isPunct).reverse :=
    (List.dropWhile_sublist isPunct).subset h1
  have h3 : c ∈ s.data.dropWhile isPunct := by simpa using h2
  exact (List.dropWhile_sublist isPunct).subset h3

/-- Helper: stripping punctuation twice is the same as stripping once. -/
theorem stripPunct_idem (s : String) : stripPunct (stripPunct s) = stripPunct s := by
  unfold stripPunct
  refine congrArg String.mk ?_
  rw [show (String.mk (((s.data.dropWhile isPunct).reverse.dropWhile isPunct).reverse)).data
      = ((s.data.dropWhile isPunct).reverse.dropWhile isPunct).reverse from rfl]
  set A := s.data.dropWhile isPunct with hA
  set B := A.reverse.dropWhile isPunct with hB
  have hBr : B.reverse.dropWhile isPunct = B.reverse := by
    apply dropWhile_no_op
    intro c hc
    cases hBnil : B with
    | nil => rw [hBnil] at hc; simp at hc
    | cons b u =>
      rw [List.head?_reverse] at hc
      have hlast : B.getLast? = A.reverse.getLast? := by
        rw [hB]
        exact getLast?_dropWhile isPunct A.reverse (by rw [← hB, hBnil]; simp)
      rw [hBnil] at hlast hc
      rw [hlast, List.getLast?_reverse] at hc
      exact head_dropWhile_false isPunct s.data c (hA ▸ hc)
  rw [hBr]
  have hB2 : B.reverse.reverse.dropWhile isPunct = B := by
    rw [List.reverse_reverse]
    apply dropWhile_no_op
    intro c hc
    exact head_dropWhile_false isPunct A.reverse c (hB ▸ hc)
  rw [hB2]

/-- Helper: every word produced by the split is non-empty and free of
whitespace. -/
theorem splitAux_words :
    ∀ (l acc : List Char), (∀ c ∈ acc, c.isWhitespace = false) →
      ∀ w ∈ splitAux l acc, w ≠ [] ∧ ∀ c ∈ w, c.isWhitespace = false := by
  intro l
  induction l with
  | nil =>
    intro acc hacc w hw
    simp only [splitAux, List.isEmpty_eq_true] at hw
    split_ifs at hw with h
    · simp at hw
    · simp only [List.mem_singleton] at hw
      subst hw
      exact ⟨by simpa using h, by simpa using hacc⟩
  | cons c cs ih =>
    intro acc hacc w hw
    simp only [splitAux, List.isEmpty_eq_true] at hw
    split_ifs at hw with h1 h2
    · exact ih [] (by simp) w hw
    · rcases List.mem_cons.mp hw with hw | hw
      · subst hw
        exact ⟨by simpa using h2, by simpa using hacc⟩
      · exact ih [] (by simp) w hw
    · refine ih (c :: acc) ?_ w hw
      intro x hx
      rcases List.mem_cons.mp hx with hx | hx
      · subst hx
        simpa using h1
      · exact hacc x hx

/-- Helper: splitting a whitespace-free character list yields that list as
the single word (given the pending accumulator). -/
theorem splitAux_single :
    ∀ (l acc : List Char), (∀ c ∈ l, c.isWhitespace = false) →
      splitAux l acc
        = if acc = [] ∧ l = [] then [] else [acc.reverse ++ l] := by
  intro l
  induction l with
  | nil =>
    intro acc _
    simp only [splitAux, List.isEmpty_eq_true]
    by_cases h : acc = [] <;> simp [h]
  | cons c cs ih =>
    intro acc hl
    simp only [splitAux, List.isEmpty_eq_true]
    have hc : c.isWhitespace = false := hl c (List.mem_cons_self c cs)
    rw [if_neg (by simp [hc])]
    rw [ih (c :: acc) (fun x hx => hl x (List.mem_cons_of_mem c hx))]
    rw [if_neg (by simp)]
    simp

/-- Helper: the words of `pySplit` are non-empty and whitespace-free. -/
theorem pySplit_words (s : String) :
    ∀ w ∈ pySplit s, w.data ≠ [] ∧ ∀ c ∈ w.data, c.isWhitespace = false := by
  intro w hw
  unfold pySplit pySplitWords at hw
  rcases List.mem_map.mp hw with ⟨wl, hwl, rfl⟩
  have := splitAux_words s.data [] (by simp) wl hwl
  exact ⟨by simpa using this.1, by simpa using this.2⟩

/-- Helper: splitting a non-empty whitespace-free string yields the string
itself. -/
theorem pySplit_single (s : String) (hne : s.data ≠ [])
    (hws : ∀ c ∈ s.data, c.isWhitespace = false) : pySplit s = [s] := by
  unfold pySplit pySplitWords
  rw [splitAux_single s.data [] hws, if_neg (by simp [hne])]
  simp only [List.reverse_nil, List.nil_append, List.map_cons, List.map_nil]

/-- Helper: on a single whitespace-free word, `_sounds_like` is exactly the
amended criterion: the punctuation-stripped, lower-cased word is non-empty
and within edit distance 2 of the lower-cased command (the length prefilter
never changes the verdict because the edit distance dominates the length
difference, and an empty stripped word splits into no candidates). -/
theorem sounds_like_single_word (w cmd : String)
    (hws : ∀ c ∈ w.data, c.isWhitespace = false) :
    sounds_like (stripPunct w) cmd 2 = specNearAmended w cmd := by
  have hcomm : stripPunct (pyLower w) = pyLower (stripPunct w) := stripPunct_pyLower w
  by_cases hx : (stripPunct w).data = []
  · have hdata : (pyLower (stripPunct w)).data = [] := by
      rw [pyLower_data, hx]
      rfl
    have hsplit : pySplit (pyLower (stripPunct w)) = [] := by
      unfold pySplit pySplitWords
      rw [hdata]
      rfl
    have hLHS : sounds_like (stripPunct w) cmd 2 = false := by
      unfold sounds_like
      rw [hsplit]
      rfl
    have hRHS : specNearAmended w cmd = false := by
      unfold specNearAmended
      rw [hcomm, hdata]
      rfl
    rw [hLHS, hRHS]
  · have hxws : ∀ c ∈ (stripPunct w).data, c.isWhitespace = false := fun c hc =>
      hws c (stripPunct_subset w c hc)
    have hlne : (pyLower (stripPunct w)).data ≠ [] := by
      rw [pyLower_data]
      simpa using hx
    have hlws : ∀ c ∈ (pyLower (stripPunct w)).data, c.isWhitespace = false := by
      rw [pyLower_data]
      intro c hc
      rcases List.mem_map.mp hc with ⟨d, hd, rfl⟩
      rw [isWhitespace_pyLowerChar]
      exact hxws d hd
    have hsplit : pySplit (pyLower (stripPunct w)) = [pyLower (stripPunct w)] :=
      pySplit_single _ hlne hlws
    have hstr : stripPunct (pyLower (stripPunct w)) = pyLower (stripPunct w) := by
      rw [stripPunct_pyLower (stripPunct w), stripPunct_idem w]
    have hie : (pyLower (stripPunct w)).data.isEmpty = false := by
      cases hdd : (pyLower (stripPunct w)).data with
      | nil => exact absurd hdd hlne
      | cons a l => rfl
    unfold sounds_like
    rw [hsplit]
    simp only [List.any_cons, List.any_nil, Bool.or_false]
    rw [hstr]
    unfold specNearAmended
    rw [hcomm, hie]
    simp only [Bool.not_false, Bool.true_and]
    by_cases hpre : 2 < Nat.dist (pyLower (stripPunct w)).length (pyLower cmd).length
    · rw [if_pos hpre]
      have hge := edit_distance_ge (pyLower (stripPunct w)) (pyLower cmd)
      have h2 : ¬ (edit_distance (pyLower (stripPunct w)) (pyLower cmd) ≤ 2) := by
        simp only [Nat.dist] at hge hpre
        omega
      rw [decide_eq_false h2]
    · rw [if_neg hpre]

/-- Helper: the fuzzy word-filter stage of `_filter_voice_commands` removes
exactly the words the amended criterion names. -/
theorem fuzzyFilterPass_eq_spec (cmd text : String) :
    fuzzyFilterPass cmd text = specWordFilterAmended cmd text := by
  unfold fuzzyFilterPass specWordFilterAmended
  congr 1
  apply List.filter_congr
  intro w hw
  rw [sounds_like_single_word w cmd (pySplit_words text w hw).2]

/-- C6 fails as stated: the regex pre-pass removes the exact command word
with only trailing commas/periods/whitespace, so punctuation around it (here
double quotes) survives as a residual word that the claim's criterion would
have removed along with the word. -/
theorem C6_counterexample :
    filter_voice_commands "marco" "finito" "\"finito\"" = "\"\""
    ∧ filterVoiceCommandsSpec "marco" "finito" "\"finito\"" = ""
    ∧ filter_voice_commands "marco" "finito" "\"finito\""
      ≠ filterVoiceCommandsSpec "marco" "finito" "\"finito\"" := by
  refine ⟨by decide, by decide, by decide⟩

/-- C6 amended: for each configured (non-empty) command word (trigger
first, then stop), the filtering first deletes exact whole-word
case-insensitive occurrences of the command together with trailing commas,
periods and whitespace (which can leave surrounding punctuation behind as
residual words), and then removes exactly those remaining words whose
punctuation-stripped, lower-cased form is non-empty and within the
edit-distance threshold (2) of the command word, keeping all other words in
their original order; finally residual whitespace is collapsed so remaining
words are separated by single spaces. -/
theorem C6_amended (voiceTrigger voiceStop text : String)
    (ht : voiceTrigger ≠ "") (hs : voiceStop ≠ "") :
    filter_voice_commands voiceTrigger voiceStop text
      = collapseWs (specWordFilterAmended voiceStop (regexSubWord voiceStop
          (specWordFilterAmended voiceTrigger (regexSubWord voiceTrigger text)))) := by
  unfold filter_voice_commands
  rw [if_pos ht, if_pos hs]
  simp only [List.singleton_append, List.isEmpty_cons, Bool.false_eq_true,
    if_false, List.foldl_cons, List.foldl_nil]
  rw [fuzzyFilterPass_eq_spec voiceTrigger, fuzzyFilterPass_eq_spec voiceStop]

/-- Witness for C6 amended at concrete configuration and text. -/
theorem C6_amended_witness :
    filter_voice_commands "marco" "finito" "hello marco, take fenito now"
      = collapseWs (specWordFilterAmended "finito" (regexSubWord "finito"
          (specWordFilterAmended "marco"
            (regexSubWord "marco" "hello marco, take fenito now")))) :=
  C6_amended "marco" "finito" "hello marco, take fenito now" (by decide) (by decide)

end Ultraplan
